import Mathlib

/-!
Verification of the crossword CSP solver in generate.py.

The solver operates over a constraint graph provided by an external
collaborator (the Crossword class, not part of the verified sources);
that data model is reproduced here from the design document.  All
solver operations (node consistency, arc revision, AC-3, the
consistency check, the heuristics and the backtracking search) are
shallow embeddings of the corresponding methods of CrosswordCreator.

Python dictionaries are modelled as insertion-ordered association
lists, Python sets of words as lists (the spec fixes a deduplicated
word sequence), and the two unbounded loops (the AC-3 worklist and the
recursive search) are run on an explicit fuel; a proved bound shows
the AC-3 fuel is never exhausted.
-/

namespace CrosswordSolver

/-- Modelled from the spec: a Slot of the external constraint-graph
builder (section 3 of the design): starting cell, one of two
axis-aligned orientations, and a length.  Identity is by value. -/
structure Variable where
  row : Nat
  col : Nat
  down : Bool
  length : Nat
deriving DecidableEq, Repr

/-- A candidate word: a string, viewed as its list of characters. -/
abbrev Word := List Char

/-- Modelled from the spec: the Constraint Graph of section 6: a finite
enumerable set of slots, a vocabulary sequence, and an overlap function
mapping an ordered slot pair to either no constraint or a pair of
character indices. -/
structure Crossword where
  vars : List Variable  -- the set self.variables of the source
  words : List Word
  overlaps : Variable → Variable → Option (Nat × Nat)

/-- Modelled from the spec: the neighbor function of the constraint
graph maps a slot to all other slots with which it shares an overlap. -/
def Crossword.neighbors (cw : Crossword) (v : Variable) : List Variable :=
  cw.vars.filter (fun u => decide (u ≠ v) && (cw.overlaps v u).isSome)

/-- The Domain Store: the current candidate-word set of every slot. -/
abbrev Domains := Variable → List Word

/-- An assignment: a Python dict from variables to words, modelled as
an insertion-ordered association list without duplicate keys. -/
abbrev Assign := List (Variable × Word)

/-- Placeholder character for indexing (overlap indices are in range
for every word of matching length, so it is never produced under the
well-formedness assumed by the design). -/
def dCh : Char := Char.ofNat 0

/-- Python assignment.get(k, False), as an Option. -/
def lookupA (a : Assign) (k : Variable) : Option Word :=
  (a.find? (fun p => decide (p.1 = k))).map (fun p => p.2)

/-- Python truthiness of assignment.get(k, False): False and the empty
string are falsy, every other string is truthy. -/
def truthy (o : Option Word) : Bool :=
  match o with
  | some w => !w.isEmpty
  | none => false

/-- Python dict update a[k] = v: overwrite in place if the key exists
(keeping its position), otherwise append. -/
def dictSet (a : Assign) (k : Variable) (v : Word) : Assign :=
  if a.any (fun p => decide (p.1 = k)) then
    a.map (fun p => if p.1 = k then (k, v) else p)
  else
    a ++ [(k, v)]

/-- Python truthiness of a backtrack result: None and the empty dict
are falsy, a non-empty dict is truthy. -/
def pyTruthy (r : Option Assign) : Bool :=
  match r with
  | some a => !a.isEmpty
  | none => false

/-- Domain initialization of CrosswordCreator.__init__: every slot's
domain is seeded with the whole vocabulary. -/
def initialDomains (cw : Crossword) : Domains := fun _ => cw.words

/-- CrosswordCreator.enforce_node_consistency: remove from every slot's
domain the words whose length differs from the slot's length. -/
def enforce_node_consistency (cw : Crossword) (d : Domains) : Domains :=
  fun v => if v ∈ cw.vars then (d v).filter (fun w => w.length == v.length) else d v

/-- CrosswordCreator.revise: make x arc consistent with y.  A word w of
x's domain survives iff some word of y's domain agrees with w at the
overlap (iteration is over a frozen copy of x's domain, removals hit
the store).  The boolean records whether any removal occurred; with no
overlap nothing happens. -/
def revise (cw : Crossword) (d : Domains) (x y : Variable) : Domains × Bool :=
  match cw.overlaps x y with
  | none => (d, false)
  | some (i, j) =>
    let keep : Word → Bool := fun w => (d y).any (fun yw => yw.getD j dCh == w.getD i dCh)
    (fun v => if v = x then (d x).filter keep else d v,
     (d x).any (fun w => !keep w))

/-- The initial arc list of CrosswordCreator.ac3 when no arcs are
supplied: every (var, neighbor) pair. -/
def initialArcs (cw : Crossword) : List (Variable × Variable) :=
  cw.vars.flatMap (fun v => (cw.neighbors v).map (fun nb => (v, nb)))

/-- Total number of candidate words across all slots (termination
measure for the AC-3 worklist). -/
def totalSize (cw : Crossword) (d : Domains) : Nat :=
  (cw.vars.map (fun v => (d v).length)).sum

/-- Fuel sufficient for the AC-3 worklist loop to drain (proved below). -/
def ac3Bound (cw : Crossword) (d : Domains) : Nat :=
  (initialArcs cw).length + totalSize cw d * (cw.vars.length + 1) + 1

/-- The worklist loop of CrosswordCreator.ac3, on explicit fuel: pop an
arc (x, y) from the front; if revising x against y changed the domain,
fail when x's domain became empty, otherwise re-enqueue (z, x) for
every neighbor z of x except y.  Result none means the fuel ran out. -/
def ac3Fuel (cw : Crossword) : Nat → List (Variable × Variable) → Domains → Option (Bool × Domains)
  | 0, _, _ => none
  | _ + 1, [], d => some (true, d)
  | fuel + 1, (x, y) :: rest, d =>
    let r := revise cw d x y
    if r.2 then
      if (r.1 x).isEmpty then some (false, r.1)
      else
        ac3Fuel cw fuel
          (rest ++ ((cw.neighbors x).filter (fun z => decide (z ≠ y))).map (fun z => (z, x)))
          r.1
    else
      ac3Fuel cw fuel rest r.1

/-- CrosswordCreator.ac3 called with no caller-supplied arcs: run the
worklist to completion; the returned pair is the boolean result
together with the domain store as mutated by the run.  (The fallback of
getD is unreachable: the fuel bound is proved sufficient below.) -/
def ac3 (cw : Crossword) (d : Domains) : Bool × Domains :=
  (ac3Fuel cw (ac3Bound cw d) (initialArcs cw) d).getD (false, d)

/-- CrosswordCreator.assignment_complete: every variable of the
crossword must have a truthy entry. -/
def assignment_complete (cw : Crossword) (a : Assign) : Bool :=
  cw.vars.all (fun v => truthy (lookupA a v))

/-- CrosswordCreator.consistent: every entry's word has the slot's
length, assigned neighbors agree at the overlap (entries that are
falsy, i.e. the empty string, are skipped in the neighbor check), and
the number of distinct values equals the number of entries. -/
def consistent (cw : Crossword) (a : Assign) : Bool :=
  (a.all fun kv =>
    (kv.2.length == kv.1.length) &&
    ((cw.neighbors kv.1).all fun nb =>
      match cw.overlaps kv.1 nb with
      | some (i, j) =>
        match lookupA a nb with
        | some nv => if nv.isEmpty then true else kv.2.getD i dCh == nv.getD j dCh
        | none => true
      | none => true)) &&
  decide (a.map (fun kv => kv.2)).Nodup

/-- The least-constraining-value score of order_domain_values: how many
words across the neighbors' current domains conflict with the value at
the overlap. -/
def ruledOutCount (cw : Crossword) (d : Domains) (var : Variable) (value : Word) : Nat :=
  ((cw.neighbors var).map fun z =>
    match cw.overlaps var z with
    | some (i, j) => ((d z).filter fun word => !(value.getD i dCh == word.getD j dCh)).length
    | none => 0).sum

/-- Stable insertion of x into a sorted list: x goes before the first
element not strictly below it, exactly as Python's stable sorted. -/
def insertBy (lt : α → α → Bool) (x : α) : List α → List α
  | [] => [x]
  | y :: ys => if lt y x then y :: insertBy lt x ys else x :: y :: ys

/-- Stable sort by a strict comparison, matching Python's sorted with a
key function (ascending, ties keep the original order). -/
def sortBy (lt : α → α → Bool) : List α → List α
  | [] => []
  | x :: xs => insertBy lt x (sortBy lt xs)

/-- CrosswordCreator.order_domain_values: the domain of var sorted
ascending by the least-constraining-value score.  The assignment
parameter is accepted (as in the source) but never read. -/
def order_domain_values (cw : Crossword) (d : Domains) (var : Variable)
    (assignment : Assign) : List Word :=
  sortBy (fun a b => ruledOutCount cw d var a < ruledOutCount cw d var b) (d var)

/-- The sort key of select_unassigned_variable: the Python list
[len(domain), len(neighbors)], compared lexicographically. -/
def varKey (cw : Crossword) (d : Domains) (x : Variable) : Nat × Nat :=
  ((d x).length, (cw.neighbors x).length)

/-- Strict lexicographic comparison of two keys, as Python compares the
two-element key lists. -/
def keyLt (p q : Nat × Nat) : Bool :=
  p.1 < q.1 || (p.1 == q.1 && p.2 < q.2)

/-- CrosswordCreator.select_unassigned_variable: sort all variables by
(domain size, neighbor count) ascending and return the first one
without a truthy entry. -/
def select_unassigned_variable (cw : Crossword) (d : Domains) (assignment : Assign) :
    Option Variable :=
  (sortBy (fun u v => keyLt (varKey cw d u) (varKey cw d v)) cw.vars).find?
    (fun v => !truthy (lookupA assignment v))

/-- The candidate loop of CrosswordCreator.backtrack: try each value in
order; a consistent extension is committed to the shared dict and
searched recursively; a falsy result undoes the commitment by writing
the empty string and moves on.  Returns the Python return value
together with the final state of the shared dict. -/
def btLoop (cw : Crossword) (bt : Assign → Option Assign × Assign) (var : Variable) :
    List Word → Assign → Option Assign × Assign
  | [], a => (none, a)
  | value :: rest, a =>
    if consistent cw (dictSet a var value) then
      let r := bt (dictSet a var value)
      if pyTruthy r.1 then r
      else btLoop cw bt var rest (dictSet r.2 var [])
    else btLoop cw bt var rest a

/-- CrosswordCreator.backtrack on explicit fuel (the recursion depth is
bounded by the number of variables for well-formed instances): return
a complete assignment as found, otherwise select an unassigned slot
and run the candidate loop.  The fallback cases (fuel exhausted; no
unassigned slot although incomplete) return failure; the latter is
unreachable because completeness and selection use the same
truthiness test over the same variables. -/
def backtrackFuel (cw : Crossword) (ds : Domains) : Nat → Assign → Option Assign × Assign
  | 0, a => (none, a)
  | fuel + 1, a =>
    if assignment_complete cw a then (some a, a)
    else
      match select_unassigned_variable cw ds a with
      | none => (none, a)
      | some var => btLoop cw (backtrackFuel cw ds fuel) var (order_domain_values cw ds var a) a

/-- CrosswordCreator.backtrack with fuel covering the full search depth
of any instance whose slots have positive length. -/
def backtrack (cw : Crossword) (ds : Domains) (a : Assign) : Option Assign × Assign :=
  backtrackFuel cw ds (cw.vars.length + 1) a

/-- CrosswordCreator.solve: enforce node consistency, run ac3 with its
result value discarded (only its mutation of the domain store
survives, exactly as in the source), then search from the empty
assignment. -/
def solve (cw : Crossword) : Option Assign :=
  let d1 := enforce_node_consistency cw (initialDomains cw)
  let d2 := (ac3 cw d1).2
  (backtrack cw d2 []).1

/-! ### Spec-side predicates used to state the claims -/

/-- The length invariant of the Domain Store (spec section 3): every
word in a slot's domain has exactly the slot's length. -/
abbrev lenInv (cw : Crossword) (d : Domains) : Prop :=
  ∀ v ∈ cw.vars, ∀ w ∈ d v, w.length = v.length

/-- Well-formedness of the constraint graph assumed by the spec: the
overlap descriptor of an unordered pair is seen by both ordered pairs,
with the two indices swapped. -/
abbrev SymmOn (cw : Crossword) : Prop :=
  ∀ x ∈ cw.vars, ∀ y ∈ cw.vars,
    cw.overlaps y x = (cw.overlaps x y).map (fun p => (p.2, p.1))

/-- Arc consistency of x with respect to y at the current domains:
every word of x's domain has a supporting word in y's domain. -/
abbrev Supported (cw : Crossword) (d : Domains) (x y : Variable) : Prop :=
  ∀ i j, cw.overlaps x y = some (i, j) →
    ∀ w ∈ d x, ∃ v ∈ d y, v.getD j dCh = w.getD i dCh

/-- Decidable checker for the claims' notion of a satisfying
assignment: complete, length-matching, overlap-agreeing, and with no
word reused across slots. -/
def specSolution (cw : Crossword) (a : Assign) : Bool :=
  (cw.vars.all fun v => truthy (lookupA a v)) &&
  (a.all fun kv => kv.2.length == kv.1.length) &&
  (a.all fun kv => (cw.neighbors kv.1).all fun nb =>
    match cw.overlaps kv.1 nb, lookupA a nb with
    | some (i, j), some nv => kv.2.getD i dCh == nv.getD j dCh
    | _, _ => true) &&
  decide (a.map (fun kv => kv.2)).Nodup

/-! ### Concrete instances

All instances are read off real grids.  Characters are written by
code point to keep the development literal-free:
97 a, 98 b, 99 c, 100 d, 101 e, 112 p, 113 q, 115 s, 116 t,
117 u, 118 v, 119 w, 120 x. -/

/-- Character by code point. -/
def ch (n : Nat) : Char := Char.ofNat n

/-- A 2 by 2 fully open grid: slot A is row 0 across, B is column 0
down, C is column 1 down, D is row 1 across; A meets B at (0, 0),
A meets C at (0, 1), B meets D at (1, 0), C meets D at (1, 1). -/
def vA : Variable := ⟨0, 0, false, 2⟩

def vB : Variable := ⟨0, 0, true, 2⟩

def vC : Variable := ⟨0, 1, true, 2⟩

def vD : Variable := ⟨1, 0, false, 2⟩

def wPQ : Word := [ch 112, ch 113]

def wPS : Word := [ch 112, ch 115]

def wQT : Word := [ch 113, ch 116]

def wUV : Word := [ch 117, ch 118]

def wUW : Word := [ch 117, ch 119]

def wVX : Word := [ch 118, ch 120]

def wWX : Word := [ch 119, ch 120]

def wSP : Word := [ch 115, ch 112]

def wTU : Word := [ch 116, ch 117]

def wXQ : Word := [ch 120, ch 113]

/-- Overlap table of the 2 by 2 open grid. -/
def ovBug (x y : Variable) : Option (Nat × Nat) :=
  if x = vA ∧ y = vB then some (0, 0)
  else if x = vB ∧ y = vA then some (0, 0)
  else if x = vA ∧ y = vC then some (1, 0)
  else if x = vC ∧ y = vA then some (0, 1)
  else if x = vB ∧ y = vD then some (1, 0)
  else if x = vD ∧ y = vB then some (0, 1)
  else if x = vC ∧ y = vD then some (1, 1)
  else if x = vD ∧ y = vC then some (1, 1)
  else none

/-- The completeness counterexample instance: the 2 by 2 open grid with
a ten word vocabulary.  The branch that assigns pq to slot A is doomed
(its unique extension B = ps, C = qt leaves no word st for D), and the
words uv, uw, vx, wx solve the puzzle. -/
def cwBug : Crossword :=
  ⟨[vA, vB, vC, vD],
   [wPQ, wPS, wUV, wUW, wSP, wTU, wQT, wVX, wWX, wXQ],
   ovBug⟩

/-- A satisfying assignment of cwBug. -/
def solBug : Assign := [(vA, wUV), (vB, wUW), (vC, wVX), (vD, wWX)]

/-- Domain store of cwBug after node consistency. -/
def dNCBug : Domains := enforce_node_consistency cwBug (initialDomains cwBug)

/-- Domain store of cwBug when search starts. -/
def dsBug : Domains := (ac3 cwBug dNCBug).2


/-- The instrumented candidate loop: identical control flow to btLoop,
additionally summing the number of backtrack invocations made. -/
def btCountLoop (cw : Crossword) (bt : Assign → (Option Assign × Assign) × Nat) (var : Variable) :
    List Word → Assign → (Option Assign × Assign) × Nat
  | [], a => ((none, a), 0)
  | value :: rest, a =>
    if consistent cw (dictSet a var value) then
      let r := bt (dictSet a var value)
      if pyTruthy r.1.1 then r
      else
        let s := btCountLoop cw bt var rest (dictSet r.1.2 var [])
        (s.1, r.2 + s.2)
    else btCountLoop cw bt var rest a

/-- Instrumented backtrack: identical control flow to backtrackFuel,
additionally counting how many times backtrack is entered. -/
def btCountFuel (cw : Crossword) (ds : Domains) : Nat → Assign → (Option Assign × Assign) × Nat
  | 0, a => ((none, a), 1)
  | fuel + 1, a =>
    if assignment_complete cw a then ((some a, a), 1)
    else
      match select_unassigned_variable cw ds a with
      | none => ((none, a), 1)
      | some var =>
        let s := btCountLoop cw (btCountFuel cw ds fuel) var (order_domain_values cw ds var a) a
        (s.1, 1 + s.2)

/-- How many times the search procedure is entered during one solve.
The source's solve calls backtrack unconditionally, so this is never
zero. -/
def solveSearchCalls (cw : Crossword) : Nat :=
  let d1 := enforce_node_consistency cw (initialDomains cw)
  let d2 := (ac3 cw d1).2
  (btCountFuel cw d2 (cw.vars.length + 1) []).2

/-- Slot X of the propagation-failure instance: column 0 down. -/
def vX4 : Variable := ⟨0, 0, true, 2⟩

/-- Slot Y of the propagation-failure instance: row 1 across. -/
def vY4 : Variable := ⟨1, 0, false, 2⟩

def wAB : Word := [ch 97, ch 98]

def wCD : Word := [ch 99, ch 100]

/-- Overlap table of the propagation-failure instance: X and Y share
the cell (1, 0), index 1 of X and index 0 of Y. -/
def ov4 (x y : Variable) : Option (Nat × Nat) :=
  if x = vX4 ∧ y = vY4 then some (1, 0)
  else if x = vY4 ∧ y = vX4 then some (0, 1)
  else none

/-- A grid with open cells (0,0), (1,0), (1,1): arc revision of X
against Y empties X's domain (no word starts with b or d). -/
def cw4 : Crossword := ⟨[vX4, vY4], [wAB, wCD], ov4⟩

/-- Domain store of cw4 after node consistency. -/
def dNC4 : Domains := enforce_node_consistency cw4 (initialDomains cw4)

/-- Slot X of the heuristic instance: row 0 across (one neighbor). -/
def vX5 : Variable := ⟨0, 0, false, 2⟩

/-- Slot Y of the heuristic instance: column 1 down (two neighbors). -/
def vY5 : Variable := ⟨0, 1, true, 2⟩

/-- Slot Z of the heuristic instance: row 1 across (one neighbor). -/
def vZ5 : Variable := ⟨1, 0, false, 2⟩

/-- Overlap table of the heuristic instance: X meets Y at (0, 1),
Y meets Z at (1, 1). -/
def ov5 (x y : Variable) : Option (Nat × Nat) :=
  if x = vX5 ∧ y = vY5 then some (1, 0)
  else if x = vY5 ∧ y = vX5 then some (0, 1)
  else if x = vY5 ∧ y = vZ5 then some (1, 1)
  else if x = vZ5 ∧ y = vY5 then some (1, 1)
  else none

/-- The heuristic instance: three slots, all domains of size two, slot
Y has the strictly highest degree. -/
def cw5 : Crossword := ⟨[vX5, vY5, vZ5], [wAB, wCD], ov5⟩

/-- Domain store of cw5 at initialization (select is queried there). -/
def ds5 : Domains := initialDomains cw5

/-- The single slot of scenario A: row 0 across, length 4. -/
def vA1 : Variable := ⟨0, 0, false, 4⟩

def wEXAM : Word := [ch 101, ch 120, ch 97, ch 109]

def wQUIZ : Word := [ch 113, ch 117, ch 105, ch 122]

/-- Scenario A of the spec: a single slot of length 4 with vocabulary
EXAM, QUIZ (lowercased code points; case is immaterial). -/
def cwA : Crossword := ⟨[vA1], [wEXAM, wQUIZ], fun _ _ => none⟩


/-! ### Basic lemmas about the embedded operations -/

theorem mem_neighbors {cw : Crossword} {v u : Variable} :
    u ∈ cw.neighbors v ↔ u ∈ cw.vars ∧ u ≠ v ∧ (cw.overlaps v u).isSome := by
  simp [Crossword.neighbors, List.mem_filter, and_assoc]

theorem neighbors_subset {cw : Crossword} {v u : Variable} (h : u ∈ cw.neighbors v) :
    u ∈ cw.vars :=
  (mem_neighbors.mp h).1

theorem neighbors_ne {cw : Crossword} {v u : Variable} (h : u ∈ cw.neighbors v) : u ≠ v :=
  (mem_neighbors.mp h).2.1

theorem neighbors_overlap {cw : Crossword} {v u : Variable} (h : u ∈ cw.neighbors v) :
    ∃ i j, cw.overlaps v u = some (i, j) := by
  rcases Option.isSome_iff_exists.mp (mem_neighbors.mp h).2.2 with ⟨⟨i, j⟩, hij⟩
  exact ⟨i, j, hij⟩

theorem neighbors_symm {cw : Crossword} (hs : SymmOn cw) {x y : Variable}
    (hx : x ∈ cw.vars) (hy : y ∈ cw.neighbors x) : x ∈ cw.neighbors y := by
  rcases mem_neighbors.mp hy with ⟨hyv, hyx, hov⟩
  refine mem_neighbors.mpr ⟨hx, Ne.symm hyx, ?_⟩
  rw [hs x hx y hyv]
  rcases Option.isSome_iff_exists.mp hov with ⟨p, hp⟩
  simp [hp]

theorem revise_none {cw : Crossword} {d : Domains} {x y : Variable}
    (hov : cw.overlaps x y = none) : revise cw d x y = (d, false) := by
  unfold revise
  rw [hov]

theorem revise_fst_x {cw : Crossword} {d : Domains} {x y : Variable} {i j : Nat}
    (hov : cw.overlaps x y = some (i, j)) :
    (revise cw d x y).1 x =
      (d x).filter (fun w => (d y).any (fun yw => yw.getD j dCh == w.getD i dCh)) := by
  unfold revise
  rw [hov]
  simp

theorem revise_snd {cw : Crossword} {d : Domains} {x y : Variable} {i j : Nat}
    (hov : cw.overlaps x y = some (i, j)) :
    (revise cw d x y).2 =
      (d x).any (fun w => !((d y).any (fun yw => yw.getD j dCh == w.getD i dCh))) := by
  unfold revise
  rw [hov]

theorem revise_fst_ne {cw : Crossword} {d : Domains} {x y v : Variable}
    (hvx : v ≠ x) : (revise cw d x y).1 v = d v := by
  unfold revise
  cases hov : cw.overlaps x y with
  | none => rfl
  | some p =>
    obtain ⟨i, j⟩ := p
    simp [hvx]

theorem revise_subset {cw : Crossword} {d : Domains} {x y v : Variable} {w : Word}
    (h : w ∈ (revise cw d x y).1 v) : w ∈ d v := by
  by_cases hvx : v = x
  · subst hvx
    cases hov : cw.overlaps v y with
    | none => rwa [revise_none hov] at h
    | some p =>
      obtain ⟨i, j⟩ := p
      rw [revise_fst_x hov] at h
      exact List.mem_of_mem_filter h
  · rwa [revise_fst_ne hvx] at h

theorem revise_len_le {cw : Crossword} {d : Domains} {x y v : Variable} :
    ((revise cw d x y).1 v).length ≤ (d v).length := by
  by_cases hvx : v = x
  · subst hvx
    cases hov : cw.overlaps v y with
    | none => rw [revise_none hov]
    | some p =>
      obtain ⟨i, j⟩ := p
      rw [revise_fst_x hov]
      exact List.length_filter_le _ _
  · rw [revise_fst_ne hvx]

theorem revise_false_fst {cw : Crossword} {d : Domains} {x y : Variable}
    (h : (revise cw d x y).2 = false) : (revise cw d x y).1 = d := by
  cases hov : cw.overlaps x y with
  | none => rw [revise_none hov]
  | some p =>
    obtain ⟨i, j⟩ := p
    rw [revise_snd hov] at h
    funext v
    by_cases hvx : v = x
    · subst hvx
      rw [revise_fst_x hov]
      refine List.filter_eq_self.mpr ?_
      intro w hw
      have := List.any_eq_false.mp h w hw
      simpa using this
    · exact revise_fst_ne hvx

theorem revise_true_lt {cw : Crossword} {d : Domains} {x y : Variable}
    (h : (revise cw d x y).2 = true) : ((revise cw d x y).1 x).length < (d x).length := by
  cases hov : cw.overlaps x y with
  | none =>
    rw [revise_none hov] at h
    cases h
  | some p =>
    obtain ⟨i, j⟩ := p
    rw [revise_snd hov] at h
    rcases List.any_eq_true.mp h with ⟨w, hw, hkeep⟩
    rw [revise_fst_x hov]
    refine List.length_filter_lt_length_iff_exists.mpr ⟨w, hw, ?_⟩
    simpa using hkeep

theorem sum_map_lt {vs : List Variable} (f g : Variable → Nat) {x : Variable}
    (hx : x ∈ vs) (hlt : f x < g x) (hle : ∀ v, f v ≤ g v) :
    (vs.map f).sum < (vs.map g).sum := by
  induction vs with
  | nil => cases hx
  | cons h t ih =>
    simp only [List.map_cons, List.sum_cons]
    rcases List.mem_cons.mp hx with rfl | hmem
    · have hsum : (t.map f).sum ≤ (t.map g).sum := List.sum_le_sum (fun i _ => hle i)
      omega
    · have h1 := ih hmem
      have h2 := hle h
      omega

/-! ### Stable sort lemmas -/

theorem mem_insertBy {lt : α → α → Bool} {x y : α} {l : List α} :
    y ∈ insertBy lt x l ↔ y = x ∨ y ∈ l := by
  induction l with
  | nil => simp [insertBy]
  | cons h t ih =>
    simp only [insertBy]
    split
    · simp only [List.mem_cons, ih]
      try tauto
    · simp only [List.mem_cons]
      try tauto

theorem mem_sortBy {lt : α → α → Bool} {y : α} {l : List α} :
    y ∈ sortBy lt l ↔ y ∈ l := by
  induction l with
  | nil => simp [sortBy]
  | cons h t ih => simp [sortBy, mem_insertBy, ih]

theorem sortBy_head_min (lt : α → α → Bool)
    (irrefl : ∀ a, lt a a = false)
    (asym : ∀ a b, lt a b = true → lt b a = false)
    (negtrans : ∀ a b c, lt a b = false → lt b c = false → lt a c = false) :
    ∀ (l : List α) (v : α) (rest : List α), sortBy lt l = v :: rest →
      ∀ y ∈ l, lt y v = false := by
  intro l
  induction l with
  | nil =>
    intro v rest h
    simp [sortBy] at h
  | cons x xs ih =>
    intro v rest hEq y hy
    rw [show sortBy lt (x :: xs) = insertBy lt x (sortBy lt xs) from rfl] at hEq
    cases hs : sortBy lt xs with
    | nil =>
      rw [hs] at hEq
      simp only [insertBy, List.cons.injEq] at hEq
      obtain ⟨rfl, rfl⟩ := hEq
      rcases List.mem_cons.mp hy with rfl | hmem
      · exact irrefl _
      · have hy2 : y ∈ sortBy lt xs := mem_sortBy.mpr hmem
        rw [hs] at hy2
        cases hy2
    | cons h t =>
      have hmin := ih h t hs
      rw [hs] at hEq
      simp only [insertBy] at hEq
      by_cases hlt : lt h x = true
      · rw [if_pos hlt] at hEq
        have hv : v = h := ((List.cons.injEq _ _ _ _).mp hEq).1.symm
        subst hv
        rcases List.mem_cons.mp hy with rfl | hmem
        · exact asym _ _ hlt
        · exact hmin y hmem
      · rw [if_neg hlt] at hEq
        have hv : v = x := ((List.cons.injEq _ _ _ _).mp hEq).1.symm
        subst hv
        rcases List.mem_cons.mp hy with rfl | hmem
        · exact irrefl y
        · exact negtrans y h v (hmin y hmem) (Bool.eq_false_iff.mpr hlt)

theorem keyLt_true_iff (p q : Nat × Nat) :
    keyLt p q = true ↔ p.1 < q.1 ∨ (p.1 = q.1 ∧ p.2 < q.2) := by
  simp [keyLt]

theorem keyLt_false_iff (p q : Nat × Nat) :
    keyLt p q = false ↔ ¬(p.1 < q.1 ∨ (p.1 = q.1 ∧ p.2 < q.2)) := by
  rw [← keyLt_true_iff]
  simp

theorem keyLt_irrefl (p : Nat × Nat) : keyLt p p = false := by
  rw [keyLt_false_iff]
  omega

theorem keyLt_asymm (p q : Nat × Nat) (h : keyLt p q = true) : keyLt q p = false := by
  rw [keyLt_true_iff] at h
  rw [keyLt_false_iff]
  omega

theorem keyLt_negtrans (p q r : Nat × Nat)
    (h1 : keyLt p q = false) (h2 : keyLt q r = false) : keyLt p r = false := by
  rw [keyLt_false_iff] at h1 h2 ⊢
  omega


/-! ### The AC-3 worklist: termination bound and run analysis -/

/-- One-step unfolding of the worklist loop on a non-empty queue. -/
theorem ac3Fuel_cons (cw : Crossword) (fuel : Nat) (x y : Variable)
    (rest : List (Variable × Variable)) (d : Domains) :
    ac3Fuel cw (fuel + 1) ((x, y) :: rest) d =
      if (revise cw d x y).2 then
        if ((revise cw d x y).1 x).isEmpty then some (false, (revise cw d x y).1)
        else
          ac3Fuel cw fuel
            (rest ++ ((cw.neighbors x).filter (fun z => decide (z ≠ y))).map (fun z => (z, x)))
            (revise cw d x y).1
      else ac3Fuel cw fuel rest (revise cw d x y).1 := rfl

theorem neighbors_length_le (cw : Crossword) (v : Variable) :
    (cw.neighbors v).length ≤ cw.vars.length :=
  List.length_filter_le _ _

/-- The fuel bound is sufficient: the worklist loop always drains. -/
theorem ac3Fuel_isSome (cw : Crossword) :
    ∀ (fuel : Nat) (queue : List (Variable × Variable)) (d : Domains),
      (∀ p ∈ queue, p.1 ∈ cw.vars) →
      queue.length + totalSize cw d * (cw.vars.length + 1) < fuel →
      (ac3Fuel cw fuel queue d).isSome = true := by
  intro fuel
  induction fuel with
  | zero =>
    intro queue d _ hb
    omega
  | succ n ih =>
    intro queue d hq hb
    cases queue with
    | nil => simp [ac3Fuel]
    | cons hd rest =>
      obtain ⟨x, y⟩ := hd
      rw [ac3Fuel_cons]
      by_cases hr : (revise cw d x y).2 = true
      · rw [if_pos hr]
        by_cases hemp : ((revise cw d x y).1 x).isEmpty = true
        · rw [if_pos hemp]
          rfl
        · rw [if_neg hemp]
          have hxv : x ∈ cw.vars := hq (x, y) (List.mem_cons_self _ _)
          have hts : totalSize cw (revise cw d x y).1 + 1 ≤ totalSize cw d := by
            exact sum_map_lt (fun v => ((revise cw d x y).1 v).length)
              (fun v => (d v).length) hxv (revise_true_lt hr)
              (fun v => revise_len_le)
          have hmul : (totalSize cw (revise cw d x y).1 + 1) * (cw.vars.length + 1) ≤
              totalSize cw d * (cw.vars.length + 1) :=
            Nat.mul_le_mul_right _ hts
          rw [Nat.succ_mul] at hmul
          have hadd : (((cw.neighbors x).filter (fun z => decide (z ≠ y))).map
              (fun z => (z, x))).length ≤ cw.vars.length := by
            rw [List.length_map]
            exact le_trans (List.length_filter_le _ _) (neighbors_length_le cw x)
          apply ih
          · intro p hp
            rcases List.mem_append.mp hp with hp1 | hp2
            · exact hq p (List.mem_cons_of_mem _ hp1)
            · rcases List.mem_map.mp hp2 with ⟨z, hz, rfl⟩
              exact neighbors_subset (List.mem_of_mem_filter hz)
          · rw [List.length_append]
            simp only [List.length_cons] at hb
            omega
      · rw [if_neg hr]
        rw [revise_false_fst (Bool.eq_false_iff.mpr hr)]
        apply ih
        · intro p hp
          exact hq p (List.mem_cons_of_mem _ hp)
        · simp only [List.length_cons] at hb
          omega

/-- The heads of the initial arcs are variables of the crossword. -/
theorem initialArcs_fst (cw : Crossword) : ∀ p ∈ initialArcs cw, p.1 ∈ cw.vars := by
  intro p hp
  rcases List.mem_flatMap.mp hp with ⟨v, hv, hmem⟩
  rcases List.mem_map.mp hmem with ⟨nb, _, rfl⟩
  exact hv

/-- The ac3 wrapper agrees with the worklist run (the fuel never runs
out). -/
theorem ac3_eq_some (cw : Crossword) (d : Domains) :
    ac3Fuel cw (ac3Bound cw d) (initialArcs cw) d = some (ac3 cw d) := by
  have h := ac3Fuel_isSome cw (ac3Bound cw d) (initialArcs cw) d (initialArcs_fst cw)
    (by unfold ac3Bound; omega)
  cases hfe : ac3Fuel cw (ac3Bound cw d) (initialArcs cw) d with
  | none => rw [hfe] at h; cases h
  | some r => unfold ac3; rw [hfe]; rfl

/-- A failing worklist run ends with an empty domain of some variable. -/
theorem ac3Fuel_false_empty (cw : Crossword) :
    ∀ (fuel : Nat) (queue : List (Variable × Variable)) (d d' : Domains),
      (∀ p ∈ queue, p.1 ∈ cw.vars) →
      ac3Fuel cw fuel queue d = some (false, d') →
      ∃ x, x ∈ cw.vars ∧ d' x = [] := by
  intro fuel
  induction fuel with
  | zero =>
    intro queue d d' _ heq
    simp [ac3Fuel] at heq
  | succ n ih =>
    intro queue d d' hq heq
    cases queue with
    | nil => simp [ac3Fuel] at heq
    | cons hd rest =>
      obtain ⟨x, y⟩ := hd
      rw [ac3Fuel_cons] at heq
      by_cases hr : (revise cw d x y).2 = true
      · rw [if_pos hr] at heq
        by_cases hemp : ((revise cw d x y).1 x).isEmpty = true
        · rw [if_pos hemp] at heq
          rw [Option.some.injEq, Prod.mk.injEq] at heq
          obtain ⟨-, rfl⟩ := heq
          exact ⟨x, hq (x, y) (List.mem_cons_self _ _), List.isEmpty_iff.mp hemp⟩
        · rw [if_neg hemp] at heq
          refine ih _ _ _ ?_ heq
          intro p hp
          rcases List.mem_append.mp hp with hp1 | hp2
          · exact hq p (List.mem_cons_of_mem _ hp1)
          · rcases List.mem_map.mp hp2 with ⟨z, hz, rfl⟩
            exact neighbors_subset (List.mem_of_mem_filter hz)
      · rw [if_neg hr] at heq
        rw [revise_false_fst (Bool.eq_false_iff.mpr hr)] at heq
        exact ih _ _ _ (fun p hp => hq p (List.mem_cons_of_mem _ hp)) heq

/-! ### Preservation of the length invariant -/

theorem lenInv_nc (cw : Crossword) (d : Domains) :
    lenInv cw (enforce_node_consistency cw d) := by
  intro v hv w hw
  unfold enforce_node_consistency at hw
  rw [if_pos hv] at hw
  have := List.of_mem_filter hw
  simpa using this

theorem lenInv_revise {cw : Crossword} {d : Domains} (x y : Variable)
    (h : lenInv cw d) : lenInv cw (revise cw d x y).1 := by
  intro v hv w hw
  exact h v hv w (revise_subset hw)

theorem lenInv_ac3Fuel (cw : Crossword) :
    ∀ (fuel : Nat) (queue : List (Variable × Variable)) (d d' : Domains) (b : Bool),
      lenInv cw d → ac3Fuel cw fuel queue d = some (b, d') → lenInv cw d' := by
  intro fuel
  induction fuel with
  | zero =>
    intro queue d d' b _ heq
    simp [ac3Fuel] at heq
  | succ n ih =>
    intro queue d d' b hlen heq
    cases queue with
    | nil =>
      simp only [ac3Fuel, Option.some.injEq, Prod.mk.injEq] at heq
      obtain ⟨-, rfl⟩ := heq
      exact hlen
    | cons hd rest =>
      obtain ⟨x, y⟩ := hd
      rw [ac3Fuel_cons] at heq
      by_cases hr : (revise cw d x y).2 = true
      · rw [if_pos hr] at heq
        by_cases hemp : ((revise cw d x y).1 x).isEmpty = true
        · rw [if_pos hemp] at heq
          rw [Option.some.injEq, Prod.mk.injEq] at heq
          obtain ⟨-, rfl⟩ := heq
          exact lenInv_revise x y hlen
        · rw [if_neg hemp] at heq
          exact ih _ _ _ _ (lenInv_revise x y hlen) heq
      · rw [if_neg hr] at heq
        rw [revise_false_fst (Bool.eq_false_iff.mpr hr)] at heq
        exact ih _ _ _ _ hlen heq

theorem lenInv_ac3 {cw : Crossword} {d : Domains} (h : lenInv cw d) :
    lenInv cw (ac3 cw d).2 := by
  have heq := ac3_eq_some cw d
  exact lenInv_ac3Fuel cw _ _ _ _ _ h
    (by rw [heq, Prod.mk.eta])


/-! ### The AC-3 closure invariant -/

/-- Queue sanity: every queued arc joins a variable to one of its
neighbors. -/
def QInv (cw : Crossword) (queue : List (Variable × Variable)) : Prop :=
  ∀ p ∈ queue, p.1 ∈ cw.vars ∧ p.2 ∈ cw.neighbors p.1

/-- The loop invariant of AC-3: every neighbor arc is either still
queued or already supported at the current domains. -/
def ArcInv (cw : Crossword) (queue : List (Variable × Variable)) (d : Domains) : Prop :=
  ∀ x ∈ cw.vars, ∀ y ∈ cw.neighbors x, (x, y) ∈ queue ∨ Supported cw d x y

theorem ac3Fuel_closure (cw : Crossword) (hs : SymmOn cw) :
    ∀ (fuel : Nat) (queue : List (Variable × Variable)) (d d' : Domains),
      QInv cw queue → ArcInv cw queue d →
      ac3Fuel cw fuel queue d = some (true, d') →
      ∀ x ∈ cw.vars, ∀ y ∈ cw.neighbors x, Supported cw d' x y := by
  intro fuel
  induction fuel with
  | zero =>
    intro queue d d' _ _ heq
    simp [ac3Fuel] at heq
  | succ n ih =>
    intro queue d d' hQ hA heq
    cases queue with
    | nil =>
      simp only [ac3Fuel, Option.some.injEq, Prod.mk.injEq] at heq
      obtain ⟨-, rfl⟩ := heq
      intro x hx y hy
      rcases hA x hx y hy with hmem | hsup
      · cases hmem
      · exact hsup
    | cons hd rest =>
      obtain ⟨x, y⟩ := hd
      obtain ⟨hxv, hyn⟩ := hQ (x, y) (List.mem_cons_self _ _)
      obtain ⟨i, j, hov⟩ := neighbors_overlap hyn
      have hyv : y ∈ cw.vars := neighbors_subset hyn
      have hyx : y ≠ x := neighbors_ne hyn
      rw [ac3Fuel_cons] at heq
      by_cases hr : (revise cw d x y).2 = true
      · rw [if_pos hr] at heq
        by_cases hemp : ((revise cw d x y).1 x).isEmpty = true
        · rw [if_pos hemp] at heq
          rw [Option.some.injEq, Prod.mk.injEq] at heq
          cases heq.1
        · rw [if_neg hemp] at heq
          refine ih _ _ _ ?_ ?_ heq
          · intro p hp
            rcases List.mem_append.mp hp with hp1 | hp2
            · exact hQ p (List.mem_cons_of_mem _ hp1)
            · rcases List.mem_map.mp hp2 with ⟨z, hz, rfl⟩
              have hzn := List.mem_of_mem_filter hz
              exact ⟨neighbors_subset hzn, neighbors_symm hs hxv hzn⟩
          · intro a ha b hb
            rcases hA a ha b hb with hmem | hsup
            · rcases List.mem_cons.mp hmem with heq2 | hrest
              · rw [Prod.mk.injEq] at heq2
                obtain ⟨rfl, rfl⟩ := heq2
                right
                intro i2 j2 hov2 w hw
                rw [hov, Option.some.injEq, Prod.mk.injEq] at hov2
                obtain ⟨rfl, rfl⟩ := hov2
                rw [revise_fst_x hov, List.mem_filter] at hw
                obtain ⟨hwx, hkeep⟩ := hw
                obtain ⟨v, hv, hveq⟩ := List.any_eq_true.mp hkeep
                rw [beq_iff_eq] at hveq
                refine ⟨v, ?_, hveq⟩
                rw [revise_fst_ne hyx]
                exact hv
              · exact Or.inl (List.mem_append_left _ hrest)
            · by_cases hbx : b = x
              · subst hbx
                by_cases hay : a = y
                · subst hay
                  right
                  intro i2 j2 hov2 w hw
                  have hsym := hs b hxv a hyv
                  rw [hov, Option.map_some'] at hsym
                  rw [hsym, Option.some.injEq, Prod.mk.injEq] at hov2
                  obtain ⟨rfl, rfl⟩ := hov2
                  rw [revise_fst_ne hyx] at hw
                  obtain ⟨v, hv, hveq⟩ := hsup j i hsym w hw
                  refine ⟨v, ?_, hveq⟩
                  rw [revise_fst_x hov, List.mem_filter]
                  refine ⟨hv, ?_⟩
                  rw [List.any_eq_true]
                  exact ⟨w, hw, by rw [beq_iff_eq]; exact hveq.symm⟩
                · refine Or.inl (List.mem_append_right _ ?_)
                  rw [List.mem_map]
                  refine ⟨a, ?_, rfl⟩
                  rw [List.mem_filter]
                  exact ⟨neighbors_symm hs ha hb, by simp [hay]⟩
              · right
                intro i2 j2 hov2 w hw
                obtain ⟨v, hv, hveq⟩ := hsup i2 j2 hov2 w (revise_subset hw)
                refine ⟨v, ?_, hveq⟩
                rw [revise_fst_ne hbx]
                exact hv
      · rw [if_neg hr] at heq
        have hreq := revise_false_fst (Bool.eq_false_iff.mpr hr)
        rw [hreq] at heq
        refine ih _ _ _ (fun p hp => hQ p (List.mem_cons_of_mem _ hp)) ?_ heq
        intro a ha b hb
        rcases hA a ha b hb with hmem | hsup
        · rcases List.mem_cons.mp hmem with heq2 | hrest
          · rw [Prod.mk.injEq] at heq2
            obtain ⟨rfl, rfl⟩ := heq2
            right
            intro i2 j2 hov2 w hw
            rw [hov, Option.some.injEq, Prod.mk.injEq] at hov2
            obtain ⟨rfl, rfl⟩ := hov2
            have h2 := Bool.eq_false_iff.mpr hr
            rw [revise_snd hov] at h2
            have hkeep := List.any_eq_false.mp h2 w hw
            simp only [Bool.not_eq_true', Bool.not_eq_false] at hkeep
            obtain ⟨v, hv, hveq⟩ := List.any_eq_true.mp hkeep
            rw [beq_iff_eq] at hveq
            exact ⟨v, hv, hveq⟩
          · exact Or.inl hrest
        · exact Or.inr hsup

theorem QInv_initial (cw : Crossword) : QInv cw (initialArcs cw) := by
  intro p hp
  rcases List.mem_flatMap.mp hp with ⟨v, hv, hmem⟩
  rcases List.mem_map.mp hmem with ⟨nb, hnb, rfl⟩
  exact ⟨hv, hnb⟩

theorem ArcInv_initial (cw : Crossword) (d : Domains) :
    ArcInv cw (initialArcs cw) d := by
  intro x hx y hy
  left
  unfold initialArcs
  exact List.mem_flatMap.mpr ⟨x, hx, List.mem_map.mpr ⟨y, hy, rfl⟩⟩

/-- Arc-consistency closure for the ac3 wrapper. -/
theorem ac3_closure {cw : Crossword} {d : Domains} (hs : SymmOn cw)
    (h : (ac3 cw d).1 = true) :
    ∀ x ∈ cw.vars, ∀ y ∈ cw.neighbors x, Supported cw (ac3 cw d).2 x y := by
  have heq := ac3_eq_some cw d
  have h2 : ac3Fuel cw (ac3Bound cw d) (initialArcs cw) d = some (true, (ac3 cw d).2) := by
    rw [heq, ← h]
  exact ac3Fuel_closure cw hs _ _ _ _ (QInv_initial cw) (ArcInv_initial cw d) h2


/-! ### Soundness of the backtracking search -/

/-- One-step unfolding of the candidate loop. -/
theorem btLoop_cons (cw : Crossword) (bt : Assign → Option Assign × Assign) (var : Variable)
    (value : Word) (rest : List Word) (a : Assign) :
    btLoop cw bt var (value :: rest) a =
      if consistent cw (dictSet a var value) then
        if pyTruthy (bt (dictSet a var value)).1 then bt (dictSet a var value)
        else btLoop cw bt var rest (dictSet (bt (dictSet a var value)).2 var [])
      else btLoop cw bt var rest a := rfl

/-- One-step unfolding of the search. -/
theorem backtrackFuel_succ (cw : Crossword) (ds : Domains) (n : Nat) (a : Assign) :
    backtrackFuel cw ds (n + 1) a =
      if assignment_complete cw a then (some a, a)
      else
        match select_unassigned_variable cw ds a with
        | none => (none, a)
        | some var =>
          btLoop cw (backtrackFuel cw ds n) var (order_domain_values cw ds var a) a := rfl

theorem btLoop_sound (cw : Crossword) (bt : Assign → Option Assign × Assign) (var : Variable)
    (hbt : ∀ a, consistent cw a = true → ∀ r, (bt a).1 = some r →
      consistent cw r = true ∧ assignment_complete cw r = true) :
    ∀ (vals : List Word) (a : Assign) (r : Assign) (s : Assign),
      btLoop cw bt var vals a = (some r, s) →
      consistent cw r = true ∧ assignment_complete cw r = true := by
  intro vals
  induction vals with
  | nil =>
    intro a r s heq
    rw [show btLoop cw bt var [] a = (none, a) from rfl, Prod.mk.injEq] at heq
    cases heq.1
  | cons value rest ih =>
    intro a r s heq
    rw [btLoop_cons] at heq
    by_cases hc : consistent cw (dictSet a var value) = true
    · rw [if_pos hc] at heq
      by_cases hp : pyTruthy (bt (dictSet a var value)).1 = true
      · rw [if_pos hp] at heq
        refine hbt _ hc r ?_
        rw [heq]
      · rw [if_neg hp] at heq
        exact ih _ _ _ heq
    · rw [if_neg hc] at heq
      exact ih _ _ _ heq

theorem backtrackFuel_sound (cw : Crossword) (ds : Domains) :
    ∀ (fuel : Nat) (a : Assign), consistent cw a = true →
      ∀ (r s : Assign), backtrackFuel cw ds fuel a = (some r, s) →
      consistent cw r = true ∧ assignment_complete cw r = true := by
  intro fuel
  induction fuel with
  | zero =>
    intro a _ r s heq
    rw [show backtrackFuel cw ds 0 a = (none, a) from rfl, Prod.mk.injEq] at heq
    cases heq.1
  | succ n ih =>
    intro a hca r s heq
    rw [backtrackFuel_succ] at heq
    by_cases hcomp : assignment_complete cw a = true
    · rw [if_pos hcomp, Prod.mk.injEq, Option.some.injEq] at heq
      obtain ⟨rfl, -⟩ := heq
      exact ⟨hca, hcomp⟩
    · rw [if_neg hcomp] at heq
      cases hsel : select_unassigned_variable cw ds a with
      | none =>
        rw [hsel, Prod.mk.injEq] at heq
        cases heq.1
      | some var =>
        rw [hsel] at heq
        exact btLoop_sound cw _ var
          (fun a' hca' r' hr' => ih a' hca' r' (backtrackFuel cw ds n a').2
            (by rw [← hr']))
          _ _ _ _ heq

/-- The empty assignment is consistent. -/
theorem consistent_nil (cw : Crossword) : consistent cw [] = true := by
  simp [consistent]

theorem solve_characterization {cw : Crossword} {r : Assign} (h : solve cw = some r) :
    consistent cw r = true ∧ assignment_complete cw r = true := by
  unfold solve at h
  have heta : backtrack cw (ac3 cw (enforce_node_consistency cw (initialDomains cw))).2 [] =
      (some r, (backtrack cw (ac3 cw (enforce_node_consistency cw (initialDomains cw))).2 []).2) := by
    rw [← h]
  exact backtrackFuel_sound cw _ _ [] (consistent_nil cw) _ _ heta

/-! ### Unpacking the boolean checks -/

theorem truthy_iff {o : Option Word} : truthy o = true ↔ ∃ w, o = some w ∧ w ≠ [] := by
  cases o with
  | none => simp [truthy]
  | some w =>
    simp only [truthy, Bool.not_eq_true', Option.some.injEq]
    constructor
    · intro h
      exact ⟨w, rfl, fun hw => by rw [hw] at h; cases h⟩
    · rintro ⟨w2, rfl, hw⟩
      cases hemp : List.isEmpty w with
      | false => rfl
      | true => exact absurd (List.isEmpty_iff.mp hemp) hw

theorem complete_iff {cw : Crossword} {a : Assign} :
    assignment_complete cw a = true ↔
      ∀ v ∈ cw.vars, ∃ w, lookupA a v = some w ∧ w ≠ [] := by
  unfold assignment_complete
  rw [List.all_eq_true]
  constructor
  · intro h v hv
    exact truthy_iff.mp (h v hv)
  · intro h v hv
    exact truthy_iff.mpr (h v hv)

theorem consistent_parts {cw : Crossword} {a : Assign} (h : consistent cw a = true) :
    (∀ kv ∈ a, kv.2.length = kv.1.length) ∧
    ((a.map (fun kv => kv.2)).Nodup) ∧
    (∀ kv ∈ a, ∀ nb ∈ cw.neighbors kv.1, ∀ i j, cw.overlaps kv.1 nb = some (i, j) →
      ∀ nv, lookupA a nb = some nv → nv ≠ [] →
        kv.2.getD i dCh = nv.getD j dCh) := by
  unfold consistent at h
  rw [Bool.and_eq_true, List.all_eq_true] at h
  obtain ⟨hall, hnd⟩ := h
  refine ⟨?_, of_decide_eq_true hnd, ?_⟩
  · intro kv hkv
    have := hall kv hkv
    rw [Bool.and_eq_true] at this
    exact beq_iff_eq.mp this.1
  · intro kv hkv nb hnb i j hov nv hnv hne
    have h1 := hall kv hkv
    rw [Bool.and_eq_true, List.all_eq_true] at h1
    have h2 := h1.2 nb hnb
    rw [hov, hnv] at h2
    have hemp : List.isEmpty nv = false := by
      cases hemp2 : List.isEmpty nv with
      | false => rfl
      | true => exact absurd (List.isEmpty_iff.mp hemp2) hne
    simp only [hemp, Bool.false_eq_true, if_false, beq_iff_eq] at h2
    exact h2


/-! ### Behavior of solve after a failed propagation -/

theorem lookupA_nil (k : Variable) : lookupA [] k = none := rfl

/-- A selected variable is unassigned in the Python sense: its entry is
absent or the empty string. -/
theorem select_unassigned {cw : Crossword} {d : Domains} {a : Assign} {v : Variable}
    (h : select_unassigned_variable cw d a = some v) :
    lookupA a v = none ∨ lookupA a v = some [] := by
  unfold select_unassigned_variable at h
  have hp := List.find?_some h
  rw [Bool.not_eq_true'] at hp
  cases hl : lookupA a v with
  | none => exact Or.inl rfl
  | some w =>
    rw [hl] at hp
    simp only [truthy] at hp
    cases hemp : List.isEmpty w with
    | true =>
      have hw : w = [] := List.isEmpty_iff.mp hemp
      subst hw
      exact Or.inr rfl
    | false =>
      rw [hemp] at hp
      simp at hp

/-- If some slot's domain is empty when search starts, the search
returns failure immediately (the MRV heuristic selects an empty-domain
slot first and its candidate list is empty). -/
theorem solve_none_of_empty_domain {cw : Crossword} {x : Variable} (hx : x ∈ cw.vars)
    (hempty : (ac3 cw (enforce_node_consistency cw (initialDomains cw))).2 x = []) :
    solve cw = none := by
  have hrfl : solve cw =
      (backtrack cw ((ac3 cw (enforce_node_consistency cw (initialDomains cw))).2) []).1 := rfl
  set d2 := (ac3 cw (enforce_node_consistency cw (initialDomains cw))).2 with hd2
  have hcomp : ¬ assignment_complete cw [] = true := by
    intro hc
    rcases complete_iff.mp hc x hx with ⟨w, hl, -⟩
    rw [lookupA_nil] at hl
    cases hl
  have hLmem : x ∈ sortBy (fun u v => keyLt (varKey cw d2 u) (varKey cw d2 v)) cw.vars :=
    mem_sortBy.mpr hx
  cases hL : sortBy (fun u v => keyLt (varKey cw d2 u) (varKey cw d2 v)) cw.vars with
  | nil =>
    rw [hL] at hLmem
    cases hLmem
  | cons v0 t =>
    have hmin := sortBy_head_min (fun u v => keyLt (varKey cw d2 u) (varKey cw d2 v))
      (fun a => keyLt_irrefl _)
      (fun a b h => keyLt_asymm _ _ h)
      (fun a b c h1 h2 => keyLt_negtrans _ _ _ h1 h2) cw.vars v0 t hL x hx
    have h1 := (keyLt_false_iff _ _).mp hmin
    have h2 : (varKey cw d2 x).1 = 0 := by
      simp [varKey, hempty]
    have h3 : (varKey cw d2 v0).1 = 0 := by omega
    have hdv0 : d2 v0 = [] := by
      refine List.length_eq_zero.mp ?_
      simpa [varKey] using h3
    have hsel : select_unassigned_variable cw d2 [] = some v0 := by
      unfold select_unassigned_variable
      rw [hL]
      exact List.find?_cons_of_pos _ rfl
    have hord : order_domain_values cw d2 v0 [] = [] := by
      unfold order_domain_values
      rw [hdv0]
      rfl
    have hbt : backtrack cw d2 [] = (none, []) := by
      unfold backtrack
      rw [backtrackFuel_succ, if_neg hcomp]
      simp only [hsel]
      rw [hord]
      rfl
    rw [hrfl, hbt]

/-! ### The invocation counter never reads zero -/

theorem btCountFuel_succ (cw : Crossword) (ds : Domains) (n : Nat) (a : Assign) :
    btCountFuel cw ds (n + 1) a =
      if assignment_complete cw a then ((some a, a), 1)
      else
        match select_unassigned_variable cw ds a with
        | none => ((none, a), 1)
        | some var =>
          ((btCountLoop cw (btCountFuel cw ds n) var (order_domain_values cw ds var a) a).1,
           1 + (btCountLoop cw (btCountFuel cw ds n) var (order_domain_values cw ds var a) a).2) :=
  rfl

theorem btCountFuel_pos (cw : Crossword) (ds : Domains) :
    ∀ (fuel : Nat) (a : Assign), 1 ≤ (btCountFuel cw ds fuel a).2 := by
  intro fuel a
  cases fuel with
  | zero => exact Nat.le_refl 1
  | succ n =>
    rw [btCountFuel_succ]
    by_cases hcomp : assignment_complete cw a = true
    · rw [if_pos hcomp]
    · rw [if_neg hcomp]
      cases hsel : select_unassigned_variable cw ds a with
      | none => simp
      | some var => simp

theorem solveSearchCalls_pos (cw : Crossword) : 1 ≤ solveSearchCalls cw :=
  btCountFuel_pos cw _ _ _


/-! ### The claims -/

/-- C1: the claim asserts solver completeness: whenever a satisfying
assignment exists, solve returns one.  The code refutes it: cwBug is a
well-formed instance (symmetric overlap table read off a 2 by 2 open
grid) satisfied by solBug, yet solve returns the failure value.  The
doomed first branch writes empty-string entries into the shared
assignment dict; those entries make every later candidate fail the
consistency length check, so the search never reaches the solution. -/
theorem c1_completeness_failure :
    SymmOn cwBug ∧ specSolution cwBug solBug = true ∧ solve cwBug = none :=
  ⟨by decide, by decide, by decide⟩

/-- C2: soundness of the solver: any assignment returned by solve is
complete, every entry matches its slot's length, assigned neighbors
agree at their overlap, no word is reused, and re-running consistent
on the result yields true. -/
theorem c2_solver_soundness (cw : Crossword) (r : Assign) (h : solve cw = some r) :
    assignment_complete cw r = true ∧
    consistent cw r = true ∧
    (∀ v ∈ cw.vars, ∃ w, lookupA r v = some w ∧ w ≠ []) ∧
    (∀ kv ∈ r, kv.2.length = kv.1.length) ∧
    (∀ kv ∈ r, ∀ nb ∈ cw.neighbors kv.1, ∀ i j, cw.overlaps kv.1 nb = some (i, j) →
      ∀ nv, lookupA r nb = some nv → kv.2.getD i dCh = nv.getD j dCh) ∧
    (r.map (fun kv => kv.2)).Nodup := by
  obtain ⟨hcons, hcomp⟩ := solve_characterization h
  obtain ⟨hlen, hnd, hov⟩ := consistent_parts hcons
  refine ⟨hcomp, hcons, complete_iff.mp hcomp, hlen, ?_, hnd⟩
  intro kv hkv nb hnb i j hovr nv hnv
  obtain ⟨w, hw, hwne⟩ := complete_iff.mp hcomp nb (neighbors_subset hnb)
  rw [hnv] at hw
  injection hw with hw
  exact hov kv hkv nb hnb i j hovr nv hnv (by rw [hw]; exact hwne)

/-- Witness for C2: scenario A (one slot of length 4, vocabulary EXAM
and QUIZ) is solved, and the theorem yields the checks on the result. -/
theorem c2_solver_soundness_witness :
    solve cwA = some [(vA1, wEXAM)] ∧
    assignment_complete cwA [(vA1, wEXAM)] = true ∧
    consistent cwA [(vA1, wEXAM)] = true := by
  have h : solve cwA = some [(vA1, wEXAM)] := by decide
  have h2 := c2_solver_soundness cwA [(vA1, wEXAM)] h
  exact ⟨h, h2.1, h2.2.1⟩

/-- C3: the claim asserts that a failed recursive branch leaves the
assignment exactly as it was before the tentative extension.  The code
refutes it: extending the empty assignment of cwBug with A = pq and
searching leaves entries for B and C (cleared to the empty string) in
the shared dict, so the assignment seen when the next candidate is
tried is three empty-string entries, not the empty assignment. -/
theorem c3_undo_not_atomic :
    backtrack cwBug dsBug (dictSet [] vA wPQ) =
      (none, [(vA, wPQ), (vB, []), (vC, [])]) ∧
    dictSet [(vA, wPQ), (vB, []), (vC, [])] vA [] =
      [(vA, []), (vB, []), (vC, [])] ∧
    [(vA, []), (vB, []), (vC, [])] ≠ ([] : Assign) :=
  ⟨by decide, by decide, by decide⟩

/-- C4 counterexample: on cw4, node consistency leaves X's domain
nonempty, propagation empties it and ac3 returns false, and solve does
return none, but the claim's "without attempting backtracking search"
is false: solve ignores the ac3 result and enters backtrack once. -/
theorem c4_counterexample :
    (ac3 cw4 dNC4).1 = false ∧ (ac3 cw4 dNC4).2 vX4 = [] ∧ dNC4 vX4 ≠ [] ∧
    solve cw4 = none ∧ solveSearchCalls cw4 = 1 :=
  ⟨by decide, by decide, by decide, by decide, by decide⟩

/-- C4 amended: if a domain empties during propagation then ac3 returns
the failure value and solve returns the unsatisfiable signal, but only
after entering the backtracking search (which returns immediately
because the MRV heuristic selects an empty-domain slot first). -/
theorem c4_amended_propagation_failure (cw : Crossword)
    (h : (ac3 cw (enforce_node_consistency cw (initialDomains cw))).1 = false) :
    (∃ x ∈ cw.vars, (ac3 cw (enforce_node_consistency cw (initialDomains cw))).2 x = []) ∧
    solve cw = none ∧ solveSearchCalls cw ≠ 0 := by
  have heq := ac3_eq_some cw (enforce_node_consistency cw (initialDomains cw))
  have heq2 : ac3Fuel cw (ac3Bound cw (enforce_node_consistency cw (initialDomains cw)))
      (initialArcs cw) (enforce_node_consistency cw (initialDomains cw)) =
      some (false, (ac3 cw (enforce_node_consistency cw (initialDomains cw))).2) := by
    rw [heq, ← h]
  obtain ⟨x, hx, hempty⟩ := ac3Fuel_false_empty cw _ _ _ _ (initialArcs_fst cw) heq2
  refine ⟨⟨x, hx, hempty⟩, solve_none_of_empty_domain hx hempty, ?_⟩
  have := solveSearchCalls_pos cw
  omega

/-- Witness for the amended C4 at the concrete instance cw4. -/
theorem c4_amended_witness :
    (ac3 cw4 (enforce_node_consistency cw4 (initialDomains cw4))).1 = false ∧
    solve cw4 = none ∧ solveSearchCalls cw4 ≠ 0 := by
  have h : (ac3 cw4 (enforce_node_consistency cw4 (initialDomains cw4))).1 = false := by decide
  have h2 := c4_amended_propagation_failure cw4 h
  exact ⟨h, h2.2.1, h2.2.2⟩

/-- C5: the claim (and the method's docstring) require ties on minimal
domain size to be broken by the HIGHEST neighbor count.  The code
refutes it: on cw5 with the empty assignment all three slots tie on
domain size, Y has strictly the most neighbors, yet the code returns
X, a slot with the fewest neighbors, because its sort key orders the
degree ascending. -/
theorem c5_degree_tiebreak_inverted :
    select_unassigned_variable cw5 ds5 [] = some vX5 ∧
    vX5 ≠ vY5 ∧ vY5 ∈ cw5.vars ∧
    (ds5 vX5).length = (ds5 vY5).length ∧
    (cw5.neighbors vX5).length < (cw5.neighbors vY5).length :=
  ⟨by decide, by decide, by decide, by decide, by decide⟩

/-- C6: arc revision semantics: with an overlap (i, j), a word survives
in x's domain iff it was there before and some word of y's domain
agrees at the overlap; no other domain changes; the returned boolean
is true iff some word was removed; without an overlap, revise is a
no-op returning false. -/
theorem c6_revise_semantics (cw : Crossword) (d : Domains) (x y : Variable) :
    (∀ i j, cw.overlaps x y = some (i, j) →
      (∀ w, w ∈ (revise cw d x y).1 x ↔
        w ∈ d x ∧ ∃ v ∈ d y, v.getD j dCh = w.getD i dCh) ∧
      (∀ v, v ≠ x → (revise cw d x y).1 v = d v) ∧
      ((revise cw d x y).2 = true ↔
        ∃ w ∈ d x, ∀ v ∈ d y, v.getD j dCh ≠ w.getD i dCh)) ∧
    (cw.overlaps x y = none → revise cw d x y = (d, false)) := by
  refine ⟨?_, fun hov => revise_none hov⟩
  intro i j hov
  refine ⟨?_, fun v hvx => revise_fst_ne hvx, ?_⟩
  · intro w
    rw [revise_fst_x hov, List.mem_filter]
    constructor
    · rintro ⟨h1, h2⟩
      obtain ⟨v, hv, hveq⟩ := List.any_eq_true.mp h2
      exact ⟨h1, v, hv, beq_iff_eq.mp hveq⟩
    · rintro ⟨h1, v, hv, hveq⟩
      exact ⟨h1, List.any_eq_true.mpr ⟨v, hv, beq_iff_eq.mpr hveq⟩⟩
  · rw [revise_snd hov]
    constructor
    · intro h
      obtain ⟨w, hw, hkeep⟩ := List.any_eq_true.mp h
      refine ⟨w, hw, ?_⟩
      intro v hv heq2
      rw [Bool.not_eq_true'] at hkeep
      have hfalse := List.any_eq_false.mp hkeep v hv
      exact hfalse (beq_iff_eq.mpr heq2)
    · rintro ⟨w, hw, hall⟩
      refine List.any_eq_true.mpr ⟨w, hw, ?_⟩
      rw [Bool.not_eq_true']
      refine List.any_eq_false.mpr ?_
      intro v hv hbe
      exact hall v hv (beq_iff_eq.mp hbe)

/-- Witness for C6 at cw4: revising X against Y removes words (both
words of X's domain lack support) and leaves Y's domain untouched. -/
theorem c6_revise_semantics_witness :
    (revise cw4 dNC4 vX4 vY4).2 = true ∧
    (revise cw4 dNC4 vX4 vY4).1 vY4 = dNC4 vY4 := by
  have h := (c6_revise_semantics cw4 dNC4 vX4 vY4).1 1 0 (by decide)
  exact ⟨h.2.2.mpr ⟨wAB, by decide, by decide⟩, h.2.1 vY4 (by decide)⟩

/-- C7: arc-consistency closure: if ac3 (with no caller-supplied arcs)
returns success on a symmetric constraint graph, then every word left
in a slot's domain has, for every neighbor, a supporting word in the
neighbor's domain agreeing at the overlap. -/
theorem c7_ac3_closure (cw : Crossword) (d : Domains) (hs : SymmOn cw)
    (h : (ac3 cw d).1 = true) :
    ∀ x ∈ cw.vars, ∀ y ∈ cw.neighbors x, ∀ i j, cw.overlaps x y = some (i, j) →
      ∀ w ∈ (ac3 cw d).2 x, ∃ v ∈ (ac3 cw d).2 y, v.getD j dCh = w.getD i dCh := by
  intro x hx y hy i j hov w hw
  exact ac3_closure hs h x hx y hy i j hov w hw

/-- Witness for C7 on cwBug: after the successful ac3 run, the word pq
of slot A's domain has a supporting word in slot B's domain. -/
theorem c7_ac3_closure_witness :
    SymmOn cwBug ∧ (ac3 cwBug dNCBug).1 = true ∧
    (∃ v ∈ (ac3 cwBug dNCBug).2 vB, v.getD 0 dCh = wPQ.getD 0 dCh) := by
  refine ⟨by decide, by decide, ?_⟩
  exact c7_ac3_closure cwBug dNCBug (by decide) (by decide) vA (by decide) vB (by decide)
    0 0 (by decide) wPQ (by decide)

/-- C8: length invariant of the Domain Store: node consistency
establishes that every remaining word has its slot's length, and both
revise and ac3 preserve the invariant (they only remove words), so it
holds at every later point of propagation and search. -/
theorem c8_length_invariant (cw : Crossword) :
    (∀ d, lenInv cw (enforce_node_consistency cw d)) ∧
    (∀ d x y, lenInv cw d → lenInv cw (revise cw d x y).1) ∧
    (∀ d, lenInv cw d → lenInv cw (ac3 cw d).2) :=
  ⟨lenInv_nc cw, fun _ x y h => lenInv_revise x y h, fun _ h => lenInv_ac3 h⟩

/-- Witness for C8 on cwBug: the invariant holds after node
consistency and is still present in the domain store that search
uses. -/
theorem c8_length_invariant_witness :
    lenInv cwBug (enforce_node_consistency cwBug (initialDomains cwBug)) ∧
    lenInv cwBug (ac3 cwBug (enforce_node_consistency cwBug (initialDomains cwBug))).2 := by
  have h1 := (c8_length_invariant cwBug).1 (initialDomains cwBug)
  exact ⟨h1, (c8_length_invariant cwBug).2.2 _ h1⟩

/-- C9: order_domain_values ignores its assignment argument: for any
two assignments over the same domain store and graph it returns the
same list. -/
theorem c9_order_ignores_assignment (cw : Crossword) (d : Domains) (var : Variable)
    (a1 a2 : Assign) :
    order_domain_values cw d var a1 = order_domain_values cw d var a2 := rfl

/-- C10: assignment_complete is true iff every variable has an entry
with a non-empty word (an absent entry or an empty-string entry makes
it false), and select_unassigned_variable can only return a variable
whose entry is absent or the empty string. -/
theorem c10_empty_string_unassigned (cw : Crossword) (a : Assign) :
    (assignment_complete cw a = true ↔
      ∀ v ∈ cw.vars, ∃ w, lookupA a v = some w ∧ w ≠ []) ∧
    (∀ d v, select_unassigned_variable cw d a = some v →
      lookupA a v = none ∨ lookupA a v = some []) :=
  ⟨complete_iff, fun _ v h => select_unassigned h⟩

/-- Witness for C10: on cwBug, the complete assignment solBug yields a
non-empty entry for A, and a variable whose entry is the empty string
is selected as unassigned. -/
theorem c10_empty_string_unassigned_witness :
    (∃ w, lookupA solBug vA = some w ∧ w ≠ []) ∧
    (lookupA [(vA, [])] vA = none ∨ lookupA [(vA, [])] vA = some []) := by
  refine ⟨(c10_empty_string_unassigned cwBug solBug).1.mp (by decide) vA (by decide), ?_⟩
  exact (c10_empty_string_unassigned cwBug [(vA, [])]).2 dsBug vA (by decide)

end CrosswordSolver
